import Mathlib

/-!
Shallow embedding of the wtt time tracker (src/main.rs).

Sessions and the store are modelled as Lean structures; timestamps are `Int`
(the source's `i64` epoch seconds; no arithmetic overflows at these sizes).
The source's in-place mutation through an aliased mutable reference is
modelled index-based: lookups return the position of the found session and
mutation is `List.set` at that position.  Fallible operations return
`Except WttError`; an error result carries no store, which models the
program's behaviour of never saving a document after a failed mutation.
The random UUID and the wall clock are passed in as explicit parameters.
Strings scanned character by character (the note wrapper) are modelled as
`List Char`; the source text is ASCII-indexed, where byte indices and
character indices coincide.
-/

/-- Model of the `Session` struct of src/main.rs. -/
structure Session where
  id : String
  start_at : Int
  end_at : Option Int
  note : Option String
  labels : List String
deriving Repr, DecidableEq

/-- Error kinds the store operations produce (src/main.rs builds them as
formatted strings; the message template identifies the kind). -/
inductive WttError where
  | notFound (id : String)
  | alreadyEnded (id : String)
  | noRunningSession
deriving Repr, DecidableEq

/-- Model of the `Store` struct of src/main.rs. -/
structure Store where
  sessions : List Session
deriving Repr, DecidableEq

/-- Lower-bound guard of the filter closure in `Store::get_all_sessions`:
reject when a from-timestamp is given and it exceeds `start_at`. -/
def passes_from (fromT : Option Int) (s : Session) : Bool :=
  match fromT with
  | some ft => !(decide (s.start_at < ft))
  | none => true

/-- Upper-bound guard of the filter closure in `Store::get_all_sessions`:
reject when a to-timestamp is given, the session has an `end_at`, and the
to-timestamp is below it. -/
def passes_to (toT : Option Int) (s : Session) : Bool :=
  match toT, s.end_at with
  | some tt, some ttx => !(decide (tt < ttx))
  | _, _ => true

/-- Label guard of the filter closure in `Store::get_all_sessions`:
reject when the filter set is nonempty and no session label is in it. -/
def passes_labels (labelset : List String) (s : Session) : Bool :=
  if labelset.isEmpty then true
  else s.labels.any (fun x => labelset.contains x)

/-- The whole filter closure of `Store::get_all_sessions`. -/
def sessionPasses (fromT toT : Option Int) (labelset : List String) (s : Session) : Bool :=
  passes_from fromT s && passes_to toT s && passes_labels labelset s

/-- Model of `Store::get_all_sessions`: filter, then a stable sort
ascending by `start_at` (the source's `sort_by_key`; stable sorting by a
key has a unique result, here given by insertion sort). -/
def Store.get_all_sessions (st : Store) (fromT toT : Option Int) (labels : List String) :
    List Session :=
  List.insertionSort (fun a b => a.start_at ≤ b.start_at)
    (st.sessions.filter (sessionPasses fromT toT labels))

/-- Model of `Store::start_session`.  The fresh UUID and the current
timestamp are explicit parameters. -/
def Store.start_session (st : Store) (labels : List String) (id : String) (now : Int) :
    Store × Session :=
  let session : Session :=
    { id := id, start_at := now, end_at := none, note := none, labels := labels }
  (⟨st.sessions ++ [session]⟩, session)

/-- Iterated `start_session`: one (id, now, labels) triple per call. -/
def startMany (st : Store) : List (String × Int × List String) → Store
  | [] => st
  | (i, n, ls) :: rest => startMany (st.start_session ls i n).1 rest

/-- Search of `Store::get_session_by_id` (`iter_mut().find`), carrying the
position of the match so mutation can happen by index. -/
def find_session_from (sid : String) : List Session → Nat → Option (Nat × Session)
  | [], _ => none
  | s :: rest, i => if s.id = sid then some (i, s) else find_session_from sid rest (i + 1)

/-- Model of `Store::get_session_by_id`: first session with the given id,
together with its position. -/
def Store.get_session_by_id (st : Store) (sid : String) : Option (Nat × Session) :=
  find_session_from sid st.sessions 0

/-- The running sessions (`end_at` absent), each with its position, in
store order: the `filter_map` of `Store::get_newest_running_session`. -/
def running_with_idx : List Session → Nat → List (Nat × Session)
  | [], _ => []
  | s :: rest, i =>
    if s.end_at.isNone then (i, s) :: running_with_idx rest (i + 1)
    else running_with_idx rest (i + 1)

/-- Model of `Store::get_newest_running_session`: stable sort of the
running sessions by `start_at`, then `pop` (the last element). -/
def Store.get_newest_running_session (st : Store) : Option (Nat × Session) :=
  (List.insertionSort (fun a b => a.2.start_at ≤ b.2.start_at)
    (running_with_idx st.sessions 0)).getLast?

/-- Model of `Store::end_session`.  With an id: not-found and
already-ended checks, then set `end_at` to `now` and overwrite `note`.
Without an id: resolve the newest running session, or fail. -/
def Store.end_session (st : Store) (idOpt : Option String) (note : Option String) (now : Int) :
    Except WttError (Store × Session) :=
  match idOpt with
  | some sid =>
    match st.get_session_by_id sid with
    | none => .error (.notFound sid)
    | some (i, s) =>
      if s.end_at.isSome then .error (.alreadyEnded sid)
      else
        let s2 := { s with end_at := some now, note := note }
        .ok (⟨st.sessions.set i s2⟩, s2)
  | none =>
    match st.get_newest_running_session with
    | none => .error .noRunningSession
    | some (i, s) =>
      let s2 := { s with end_at := some now, note := note }
      .ok (⟨st.sessions.set i s2⟩, s2)

/-- Model of `Store::update_note`: look up by id, overwrite the note. -/
def Store.update_note (st : Store) (sid : String) (note : String) : Except WttError Store :=
  match st.get_session_by_id sid with
  | none => .error (.notFound sid)
  | some (i, s) => .ok ⟨st.sessions.set i { s with note := some note }⟩

/-- Per-session step of `Store::remove_label`: keep the labels different
from `name` (the source's `retain`), and report how many were dropped. -/
def Session.removeLabel (name : String) (s : Session) : Session × Nat :=
  let kept := s.labels.filter (fun x => x ≠ name)
  ({ s with labels := kept }, s.labels.length - kept.length)

/-- Model of `Store::remove_label`: strip `name` from every session's
labels; the returned count accumulates `count_before - count_after` per
session, i.e. the number of removed label occurrences. -/
def Store.remove_label (st : Store) (name : String) : Store × Nat :=
  let pairs := st.sessions.map (Session.removeLabel name)
  (⟨pairs.map Prod.fst⟩, (pairs.map Prod.snd).sum)

/-- Model of `format_duration` of src/main.rs. -/
def format_duration (value : Nat) (still_running : Bool) (separator : String) : String :=
  let parts0 : List String := if still_running then ["for now"] else []
  let hours := value / 60
  let parts1 : List String :=
    if hours > 0 then parts0 ++ [toString hours ++ " hours"] else parts0
  let minutes := value % 60
  let parts2 : List String := parts1 ++ [toString minutes ++ " minutes"]
  String.intercalate separator parts2

/-- The whitespace scan of `built_multilined_note`: the index of the last
space strictly before `mw` (the source walks `char_indices`, stops at
`index >= max_width`, and remembers the last index holding a space). -/
def lastWsIndex : List Char → Nat → Option Nat
  | [], _ => none
  | c :: rest, mw =>
    if mw = 0 then none
    else
      match lastWsIndex rest (mw - 1) with
      | some i => some (i + 1)
      | none => if c = ' ' then some 0 else none

/-- Outcome of the wrapping loop: the lines, a usize-underflow panic
(`max_width - 1` with `max_width = 0`), or fuel exhaustion marking a
non-terminating run of the source loop. -/
inductive WrapResult where
  | ok (lines : List (List Char))
  | panicked
  | outOfFuel
deriving Repr, DecidableEq

/-- Prepend the line produced by one loop iteration to the lines of the
rest of the run, propagating a panic or fuel exhaustion. -/
def WrapResult.consLine (line : List Char) : WrapResult → WrapResult
  | .ok parts => .ok (line :: parts)
  | r => r

/-- Fuelled model of the `while` loop of `built_multilined_note`.  One
iteration: emit the whole text when it fits; otherwise break at the last
space before `max_width` (trimming leading whitespace off the remainder,
the source's `trim_start`) or, with no space in range, hard-split at
`max_width - 1`. -/
def wrapFuel : Nat → List Char → Nat → WrapResult
  | 0, _, _ => .outOfFuel
  | fuel + 1, text, mw =>
    if text.length = 0 then .ok []
    else if text.length ≤ mw then .ok [text]
    else
      match lastWsIndex text mw with
      | some ws =>
        WrapResult.consLine (text.take ws)
          (wrapFuel fuel ((text.drop ws).dropWhile (fun c => c.isWhitespace)) mw)
      | none =>
        if mw = 0 then .panicked
        else
          WrapResult.consLine (text.take (mw - 1))
            (wrapFuel fuel (text.drop (mw - 1)) mw)

/-- Model of `built_multilined_note`: run the loop and join the collected
parts with newlines (the source's `parts.join("\n")`). -/
def built_multilined_note (text : List Char) (max_width : Nat) (fuel : Nat) :
    Option String :=
  match wrapFuel fuel text max_width with
  | .ok parts => some (String.intercalate "\n" (parts.map (fun l => String.mk l)))
  | _ => none

/-- Fixture: a running session started at 100. -/
def sessA : Session :=
  { id := "a1", start_at := 100, end_at := none, note := none, labels := ["work"] }

/-- Fixture: a running session started at 200 (the newest running one). -/
def sessB : Session :=
  { id := "b2", start_at := 200, end_at := none, note := none, labels := ["play"] }

/-- Fixture: an ended session carrying a note. -/
def sessC : Session :=
  { id := "c3", start_at := 50, end_at := some 80, note := some "old", labels := ["work"] }

/-- Fixture: a store with two running sessions at distinct start times. -/
def storeTwoRunning : Store := ⟨[sessA, sessB]⟩

/-- Fixture: a store mixing an ended session and two running ones. -/
def storeMixed : Store := ⟨[sessC, sessA, sessB]⟩

/-- Fixture: a store whose only session has already ended. -/
def storeEnded : Store := ⟨[sessC]⟩

/-- Fixture: a store whose only session lists the same label twice. -/
def dupLabelStore : Store :=
  ⟨[{ id := "s1", start_at := 0, end_at := none, note := none, labels := ["a", "a"] }]⟩

theorem aux_intercalate_pair (s a b : String) : String.intercalate s [a, b] = a ++ s ++ b := rfl

theorem aux_intercalate_single (s a : String) : String.intercalate s [a] = a := rfl

theorem aux_hours_join (t u : String) :
    String.intercalate " " [t ++ " hours", u ++ " minutes"]
      = t ++ " hours " ++ u ++ " minutes" := by
  apply String.ext
  simp only [aux_intercalate_pair, String.data_append, List.append_assoc]
  congr 1

theorem aux_startMany_sessions (inputs : List (String × Int × List String)) :
    ∀ st : Store, (startMany st inputs).sessions =
      st.sessions ++ inputs.map (fun p =>
        { id := p.1, start_at := p.2.1, end_at := none, note := none, labels := p.2.2 }) := by
  induction inputs with
  | nil => intro st; simp [startMany]
  | cons p rest ih =>
    intro st
    obtain ⟨i, n, ls⟩ := p
    simp [startMany, Store.start_session, ih]

theorem aux_removed_count (name : String) (ls : List String) :
    ls.length - (ls.filter (fun x => x ≠ name)).length = ls.count name := by
  induction ls with
  | nil => simp
  | cons a rest ih =>
    have hle : (rest.filter (fun x => x ≠ name)).length ≤ rest.length :=
      List.length_filter_le _ rest
    rcases eq_or_ne a name with h | h
    · subst h
      rw [List.filter_cons_of_neg (by simp), List.count_cons_self, List.length_cons]
      omega
    · rw [List.filter_cons_of_pos (by simpa using h), List.count_cons_of_ne (Ne.symm h),
        List.length_cons, List.length_cons]
      omega

theorem aux_remove_label_count (st : Store) (name : String) :
    (st.remove_label name).2 = (st.sessions.map (fun s => s.labels.count name)).sum := by
  have hdef : (st.remove_label name).2
      = ((st.sessions.map (Session.removeLabel name)).map Prod.snd).sum := rfl
  rw [hdef, List.map_map]
  congr 1
  apply List.map_congr_left
  intro s _
  simpa [Session.removeLabel] using aux_removed_count name s.labels

theorem aux_sum_count_eq_countP (name : String) :
    ∀ ls : List Session, (∀ s ∈ ls, s.labels.count name ≤ 1) →
      (ls.map (fun s => s.labels.count name)).sum
        = ls.countP (fun s => s.labels.contains name) := by
  intro ls
  induction ls with
  | nil => simp
  | cons a rest ih =>
    intro h
    have ha := h a (by simp)
    have hrest := ih (fun s hs => h s (by simp [hs]))
    rw [List.map_cons, List.sum_cons, List.countP_cons, hrest]
    by_cases hm : name ∈ a.labels
    · have h1 : a.labels.count name ≠ 0 := by simpa [List.count_eq_zero] using hm
      have hc : a.labels.contains name = true := by simpa using hm
      rw [hc, show (if (true = true) then 1 else 0) = 1 from rfl]
      omega
    · have h0 : a.labels.count name = 0 := List.count_eq_zero.mpr hm
      have hc : a.labels.contains name = false := by simpa using hm
      rw [hc, h0]
      simp

/-- C8: the duration formatter decomposes minutes as hours = value / 60 and
remainder = value % 60, renders the hours clause only when hours > 0, and on
the spec's instances yields "2 hours 5 minutes" for 125 and "45 minutes"
(no hours clause) for 45. -/
theorem format_duration_spec :
    (∀ value : Nat, format_duration value false " " =
      if value / 60 > 0
      then toString (value / 60) ++ " hours " ++ toString (value % 60) ++ " minutes"
      else toString (value % 60) ++ " minutes")
    ∧ format_duration 125 false " " = "2 hours 5 minutes"
    ∧ format_duration 45 false " " = "45 minutes" := by
  refine ⟨fun value => ?_, by decide, by decide⟩
  show String.intercalate " "
      ((if value / 60 > 0 then [toString (value / 60) ++ " hours"] else [])
        ++ [toString (value % 60) ++ " minutes"]) = _
  by_cases h : value / 60 > 0
  · simp only [if_pos h, List.singleton_append]
    exact aux_hours_join (toString (value / 60)) (toString (value % 60))
  · simp only [if_neg h, List.nil_append, aux_intercalate_single]

/-- C6: every `start_session` appends exactly one new session whose
`start_at` is the given instant and whose `end_at` and `note` are absent,
leaving pre-existing sessions unchanged; over any sequence of starts the
stored ids are the old ids followed by the supplied fresh ids, so when the
supplied ids are fresh and pairwise distinct (the UUID model) the store's
id-uniqueness invariant is preserved. -/
theorem start_session_spec :
    ∀ (st : Store) (labels : List String) (idv : String) (now : Int)
      (inputs : List (String × Int × List String)),
      (st.start_session labels idv now).1.sessions
          = st.sessions ++ [(st.start_session labels idv now).2]
      ∧ (st.start_session labels idv now).2
          = { id := idv, start_at := now, end_at := none, note := none, labels := labels }
      ∧ (startMany st inputs).sessions
          = st.sessions ++ inputs.map (fun p =>
              { id := p.1, start_at := p.2.1, end_at := none, note := none, labels := p.2.2 })
      ∧ (((st.sessions.map Session.id) ++ inputs.map (fun p => p.1)).Nodup →
          ((startMany st inputs).sessions.map Session.id).Nodup) := by
  intro st labels idv now inputs
  refine ⟨rfl, rfl, aux_startMany_sessions inputs st, fun h => ?_⟩
  rw [aux_startMany_sessions inputs st, List.map_append, List.map_map]
  simpa using h

/-- Witness for C6 at a concrete store and input sequence. -/
theorem start_session_spec_witness :
    ((startMany ⟨[]⟩ [("x", 1, []), ("y", 2, ["w"])]).sessions.map Session.id).Nodup :=
  (start_session_spec ⟨[]⟩ [] "z" 0 [("x", 1, []), ("y", 2, ["w"])]).2.2.2 (by decide)

/-- C2 counterexample: on a session listing label "a" twice, `remove_label`
returns 2 although the store holds a single session (which is modified and
kept with an empty label list), so the returned value counts removed label
occurrences, not modified sessions. -/
theorem remove_label_count_counterexample :
    (dupLabelStore.remove_label "a").2 = 2
    ∧ dupLabelStore.sessions.length = 1
    ∧ (dupLabelStore.remove_label "a").1.sessions.map Session.labels = [[]] := by
  decide

/-- C2 amended: `remove_label` always succeeds, keeps every session (same
length, all other fields untouched, the name stripped from each label
list), and returns the count of removed label occurrences — which equals
the count of modified sessions whenever no session lists the name twice. -/
theorem remove_label_spec :
    ∀ (st : Store) (name : String),
      (st.remove_label name).1.sessions.length = st.sessions.length
      ∧ (∀ (i : Nat) (s s3 : Session), st.sessions[i]? = some s →
          (st.remove_label name).1.sessions[i]? = some s3 →
          s3.id = s.id ∧ s3.start_at = s.start_at ∧ s3.end_at = s.end_at
            ∧ s3.note = s.note ∧ s3.labels = s.labels.filter (fun x => x ≠ name)
            ∧ name ∉ s3.labels)
      ∧ (st.remove_label name).2 = (st.sessions.map (fun s => s.labels.count name)).sum
      ∧ ((∀ s ∈ st.sessions, s.labels.count name ≤ 1) →
          (st.remove_label name).2 = st.sessions.countP (fun s => s.labels.contains name)) := by
  intro st name
  refine ⟨?_, ?_, aux_remove_label_count st name, fun h => ?_⟩
  · unfold Store.remove_label
    simp
  · intro i s s3 hs hs3
    have hdef : (st.remove_label name).1.sessions
        = (st.sessions.map (Session.removeLabel name)).map Prod.fst := rfl
    rw [hdef, List.map_map, List.getElem?_map, hs, Option.map_some'] at hs3
    obtain rfl : _ = s3 := Option.some_inj.mp hs3
    refine ⟨rfl, rfl, rfl, rfl, rfl, ?_⟩
    simp [Session.removeLabel]
  · rw [aux_remove_label_count st name]
    exact aux_sum_count_eq_countP name st.sessions h

/-- Witness for C2's amended claim on a duplicate-free store. -/
theorem remove_label_spec_witness :
    (storeMixed.remove_label "work").2
      = storeMixed.sessions.countP (fun s => s.labels.contains "work") :=
  (remove_label_spec storeMixed "work").2.2.2 (by decide)

theorem aux_find_session_none (sid : String) :
    ∀ (l : List Session) (i : Nat), (∀ s ∈ l, s.id ≠ sid) → find_session_from sid l i = none := by
  intro l
  induction l with
  | nil => intro i _; rfl
  | cons a rest ih =>
    intro i h
    have ha : a.id ≠ sid := h a (by simp)
    simp [find_session_from, ha, ih (i + 1) (fun s hs => h s (by simp [hs]))]

theorem aux_find_session_some (sid : String) :
    ∀ (l : List Session) (i j : Nat) (s : Session),
      find_session_from sid l i = some (j, s) →
      ∃ k, j = i + k ∧ l[k]? = some s ∧ s.id = sid := by
  intro l
  induction l with
  | nil => intro i j s h; simp [find_session_from] at h
  | cons a rest ih =>
    intro i j s h
    by_cases ha : a.id = sid
    · simp only [find_session_from, if_pos ha, Option.some_inj, Prod.mk.injEq] at h
      obtain ⟨h1, h2⟩ := h
      subst h1
      subst h2
      exact ⟨0, by omega, by simp, ha⟩
    · simp only [find_session_from, if_neg ha] at h
      obtain ⟨k, hk, hget, hid⟩ := ih (i + 1) j s h
      exact ⟨k + 1, by omega, by simpa using hget, hid⟩

theorem aux_find_session_mem_nodup (sid : String) :
    ∀ (l : List Session) (s : Session), (l.map Session.id).Nodup → s ∈ l → s.id = sid →
      ∀ i : Nat, ∃ j, find_session_from sid l i = some (j, s) := by
  intro l
  induction l with
  | nil => intro s _ hs; simp at hs
  | cons a rest ih =>
    intro s hnd hs hid i
    rw [List.map_cons] at hnd
    have hnd2 := List.nodup_cons.mp hnd
    rcases List.mem_cons.mp hs with rfl | hs2
    · exact ⟨i, by simp [find_session_from, hid]⟩
    · have ha : a.id ≠ sid := fun hEq => hnd2.1 (by
        rw [hEq, ← hid]
        exact List.mem_map_of_mem _ hs2)
      obtain ⟨j, hj⟩ := ih s hnd2.2 hs2 hid (i + 1)
      exact ⟨j, by simp [find_session_from, ha, hj]⟩

/-- C7: `update_note` with an unknown id fails with not-found and changes
nothing (an error result carries no store); with a known id it overwrites
the note of the session found at that position unconditionally — no check
on running or ended state — and leaves every other field and every other
session unchanged. -/
theorem update_note_spec :
    ∀ (st : Store) (sid : String) (note : String),
      ((∀ s ∈ st.sessions, s.id ≠ sid) →
        st.update_note sid note = .error (.notFound sid))
      ∧ (∀ (i : Nat) (s : Session), st.get_session_by_id sid = some (i, s) →
          s.id = sid ∧ st.sessions[i]? = some s
          ∧ st.update_note sid note = .ok ⟨st.sessions.set i { s with note := some note }⟩
          ∧ ({ s with note := some note } : Session).note = some note
          ∧ ({ s with note := some note } : Session).id = s.id
          ∧ ({ s with note := some note } : Session).start_at = s.start_at
          ∧ ({ s with note := some note } : Session).end_at = s.end_at
          ∧ ({ s with note := some note } : Session).labels = s.labels
          ∧ ∀ j : Nat, j ≠ i →
              (st.sessions.set i { s with note := some note })[j]? = st.sessions[j]?) := by
  intro st sid note
  constructor
  · intro h
    unfold Store.update_note Store.get_session_by_id
    rw [aux_find_session_none sid st.sessions 0 h]
  · intro i s h
    obtain ⟨k, hk, hget, hid⟩ := aux_find_session_some sid st.sessions 0 i s h
    have hik : i = k := by omega
    refine ⟨hid, by rw [hik]; exact hget, ?_, rfl, rfl, rfl, rfl, rfl, ?_⟩
    · unfold Store.update_note
      rw [h]
    · intro j hj
      exact List.getElem?_set_ne (Ne.symm hj)

/-- Witness for C7: the note of an already-ended session is replaced. -/
theorem update_note_spec_witness :
    storeEnded.update_note "c3" "new"
      = .ok ⟨storeEnded.sessions.set 0 { sessC with note := some "new" }⟩ :=
  ((update_note_spec storeEnded "c3" "new").2 0 sessC (by decide)).2.2.1

/-- C3: `end_session` with an id that belongs to an already-ended session
fails with the already-ended (Conflict) error, and with an id present in no
session fails with not-found; an error result carries no store, so the
session's earlier `end_at` and `note` are untouched. -/
theorem end_session_error_paths :
    ∀ (st : Store) (sid : String) (note : Option String) (now : Int),
      ((∀ s ∈ st.sessions, s.id ≠ sid) →
        st.end_session (some sid) note now = .error (.notFound sid))
      ∧ (∀ (s : Session) (e : Int), (st.sessions.map Session.id).Nodup →
          s ∈ st.sessions → s.id = sid → s.end_at = some e →
          st.end_session (some sid) note now = .error (.alreadyEnded sid)) := by
  intro st sid note now
  constructor
  · intro h
    have hfind := aux_find_session_none sid st.sessions 0 h
    simp [Store.end_session, Store.get_session_by_id, hfind]
  · intro s e hnd hs hid he
    obtain ⟨j, hj⟩ := aux_find_session_mem_nodup sid st.sessions s hnd hs hid 0
    simp [Store.end_session, Store.get_session_by_id, hj, he]

theorem aux_insertionSort_pairwise {α : Type} (key : α → Int) (l : List α) :
    (List.insertionSort (fun a b => key a ≤ key b) l).Pairwise
      (fun a b => key a ≤ key b) := by
  haveI : IsTotal α (fun a b => key a ≤ key b) := ⟨fun a b => Int.le_total (key a) (key b)⟩
  haveI : IsTrans α (fun a b => key a ≤ key b) :=
    ⟨fun a b c hab hbc => le_trans hab hbc⟩
  exact List.sorted_insertionSort _ l

theorem aux_passes_from_iff (fromT : Option Int) (s : Session) :
    passes_from fromT s = true ↔ ∀ ft : Int, fromT = some ft → ft ≤ s.start_at := by
  cases fromT with
  | none => simp [passes_from]
  | some ft => simp [passes_from]

theorem aux_passes_to_iff (toT : Option Int) (s : Session) :
    passes_to toT s = true ↔ ∀ tt e : Int, toT = some tt → s.end_at = some e → e ≤ tt := by
  cases toT with
  | none => simp [passes_to]
  | some tt =>
    cases hE : s.end_at with
    | none => simp [passes_to, hE]
    | some e => simp [passes_to, hE]

theorem aux_passes_labels_iff (labelset : List String) (s : Session) :
    passes_labels labelset s = true
      ↔ (labelset = [] ∨ ∃ l, l ∈ s.labels ∧ l ∈ labelset) := by
  by_cases h : labelset.isEmpty
  · simp [passes_labels, h, List.isEmpty_iff.mp h]
  · have hne : labelset ≠ [] := by simpa [List.isEmpty_iff] using h
    simp [passes_labels, h, hne, List.any_eq_true]

/-- C1: `get_all_sessions` returns a permutation of the sessions passing
the filter closure, sorted ascending by `start_at`; the closure holds on a
session exactly when `start_at` is at least any given from-bound, any
`end_at` is at most any given to-bound (a running session always passes),
and the label list meets the filter set unless that set is empty. -/
theorem get_all_sessions_spec :
    ∀ (st : Store) (fromT toT : Option Int) (labels : List String),
      (st.get_all_sessions fromT toT labels).Perm
          (st.sessions.filter (sessionPasses fromT toT labels))
      ∧ List.Pairwise (fun a b : Session => a.start_at ≤ b.start_at)
          (st.get_all_sessions fromT toT labels)
      ∧ ∀ s : Session, sessionPasses fromT toT labels s = true ↔
          ((∀ ft : Int, fromT = some ft → ft ≤ s.start_at)
           ∧ (∀ tt e : Int, toT = some tt → s.end_at = some e → e ≤ tt)
           ∧ (labels = [] ∨ ∃ l, l ∈ s.labels ∧ l ∈ labels)) := by
  intro st fromT toT labels
  refine ⟨List.perm_insertionSort _ _, ?_, fun s => ?_⟩
  · exact aux_insertionSort_pairwise Session.start_at
      (st.sessions.filter (sessionPasses fromT toT labels))
  · rw [sessionPasses, Bool.and_eq_true, Bool.and_eq_true,
      aux_passes_from_iff, aux_passes_to_iff, aux_passes_labels_iff]
    tauto

/-- Witness for C1 at a mixed fixture store: only the running "work"
session started after the from-bound survives the three filters. -/
theorem get_all_sessions_spec_witness :
    (storeMixed.get_all_sessions (some 60) (some 90) ["work"]).Perm
        (storeMixed.sessions.filter (sessionPasses (some 60) (some 90) ["work"]))
    ∧ storeMixed.get_all_sessions (some 60) (some 90) ["work"] = [sessA] :=
  ⟨(get_all_sessions_spec storeMixed (some 60) (some 90) ["work"]).1, by decide⟩

theorem aux_pairwise_getLast {α : Type} (r : α → α → Prop) :
    ∀ (l : List α) (m : α), l.Pairwise r → l.getLast? = some m →
      ∀ a ∈ l, a = m ∨ r a m := by
  intro l
  induction l with
  | nil => intro m _ h; simp at h
  | cons x xs ih =>
    intro m hp hl a ha
    cases xs with
    | nil =>
      rw [List.getLast?_singleton] at hl
      obtain rfl : x = m := Option.some_inj.mp hl
      rcases List.mem_singleton.mp ha with rfl
      exact Or.inl rfl
    | cons y ys =>
      rw [List.getLast?_cons_cons] at hl
      have hp2 := List.pairwise_cons.mp hp
      rcases List.mem_cons.mp ha with rfl | ha2
      · exact Or.inr (hp2.1 m (List.mem_of_getLast?_eq_some hl))
      · exact ih m hp2.2 hl a ha2

theorem aux_running_nil (l : List Session) :
    ∀ i : Nat, (∀ s ∈ l, s.end_at ≠ none) → running_with_idx l i = [] := by
  induction l with
  | nil => intro i _; rfl
  | cons a rest ih =>
    intro i h
    have ha0 : a.end_at ≠ none := h a (by simp)
    have ha : a.end_at.isNone = false := by
      cases hE : a.end_at with
      | none => exact absurd hE ha0
      | some v => rfl
    simp [running_with_idx, ha, ih (i + 1) (fun s hs => h s (by simp [hs]))]

theorem aux_running_mem (l : List Session) :
    ∀ (i j : Nat) (s : Session), (j, s) ∈ running_with_idx l i →
      ∃ k, j = i + k ∧ l[k]? = some s ∧ s.end_at = none := by
  induction l with
  | nil => intro i j s h; simp [running_with_idx] at h
  | cons a rest ih =>
    intro i j s h
    by_cases ha : a.end_at.isNone = true
    · rw [running_with_idx, if_pos ha] at h
      rcases List.mem_cons.mp h with hEq | h2
      · have h12 : j = i ∧ s = a := by simpa [Prod.ext_iff] using hEq
        obtain ⟨rfl, rfl⟩ := h12
        exact ⟨0, by omega, by simp, by simpa [Option.isNone_iff_eq_none] using ha⟩
      · obtain ⟨k, hk, hget, hn⟩ := ih (i + 1) j s h2
        exact ⟨k + 1, by omega, by simpa using hget, hn⟩
    · rw [running_with_idx, if_neg ha] at h
      obtain ⟨k, hk, hget, hn⟩ := ih (i + 1) j s h
      exact ⟨k + 1, by omega, by simpa using hget, hn⟩

theorem aux_running_complete (l : List Session) :
    ∀ (i : Nat) (s : Session), s ∈ l → s.end_at = none →
      ∃ j, (j, s) ∈ running_with_idx l i := by
  induction l with
  | nil => intro i s h; simp at h
  | cons a rest ih =>
    intro i s hs hn
    rcases List.mem_cons.mp hs with rfl | hs2
    · refine ⟨i, ?_⟩
      rw [running_with_idx, if_pos (by simp [hn])]
      exact List.mem_cons_self _ _
    · obtain ⟨j, hj⟩ := ih (i + 1) s hs2 hn
      by_cases ha : a.end_at.isNone = true
      · refine ⟨j, ?_⟩
        rw [running_with_idx, if_pos ha]
        exact List.mem_cons_of_mem _ hj
      · exact ⟨j, by rw [running_with_idx, if_neg ha]; exact hj⟩

/-- C4: `end_session` without an id fails with a distinct no-running-session
error when every session has ended; otherwise it resolves to the running
session with the greatest `start_at` (stated for a strict maximum, as in
the spec's distinct-start-times scenario), mutates only that session, and
leaves every other position of the store unchanged. -/
theorem end_session_default_resolution :
    ∀ (st : Store) (note : Option String) (now : Int),
      ((∀ s ∈ st.sessions, s.end_at ≠ none) →
        st.end_session none note now = .error .noRunningSession)
      ∧ (∀ s : Session, s ∈ st.sessions → s.end_at = none →
          (∀ r ∈ st.sessions, r.end_at = none → r ≠ s → r.start_at < s.start_at) →
          ∃ i : Nat, st.sessions[i]? = some s
            ∧ st.end_session none note now
                = .ok (⟨st.sessions.set i { s with end_at := some now, note := note }⟩,
                    { s with end_at := some now, note := note })
            ∧ ∀ j : Nat, j ≠ i →
                (st.sessions.set i { s with end_at := some now, note := note })[j]?
                  = st.sessions[j]?) := by
  intro st note now
  constructor
  · intro h
    have h0 : running_with_idx st.sessions 0 = [] := aux_running_nil st.sessions 0 h
    simp [Store.end_session, Store.get_newest_running_session, h0]
  · intro s hs hn hmax
    obtain ⟨j0, hj0⟩ := aux_running_complete st.sessions 0 s hs hn
    have hjM : (j0, s) ∈ List.insertionSort (fun a b => a.2.start_at ≤ b.2.start_at)
        (running_with_idx st.sessions 0) :=
      (List.perm_insertionSort _ _).mem_iff.mpr hj0
    have hMne : List.insertionSort (fun a b => a.2.start_at ≤ b.2.start_at)
        (running_with_idx st.sessions 0) ≠ [] := by
      intro hM
      rw [hM] at hjM
      simp at hjM
    obtain ⟨m, hm⟩ := Option.isSome_iff_exists.mp (List.getLast?_isSome.mpr hMne)
    have hsorted := aux_insertionSort_pairwise (fun p : Nat × Session => p.2.start_at)
      (running_with_idx st.sessions 0)
    have hmL : m ∈ running_with_idx st.sessions 0 :=
      (List.perm_insertionSort _ _).mem_iff.mp (List.mem_of_getLast?_eq_some hm)
    obtain ⟨k, hk, hgetm, hnm⟩ := aux_running_mem st.sessions 0 m.1 m.2 (by simpa using hmL)
    have hle := aux_pairwise_getLast _ _ m hsorted hm (j0, s) hjM
    have hms : m.2 = s := by
      rcases hle with hEq | hlt
      · rw [← hEq]
      · by_contra hne
        have hm_mem : m.2 ∈ st.sessions := List.getElem?_mem hgetm
        have := hmax m.2 hm_mem hnm hne
        simp only at hlt
        omega
    have hget : st.get_newest_running_session = some (m.1, m.2) := by
      unfold Store.get_newest_running_session
      simpa using hm
    rw [hms] at hget hgetm
    refine ⟨m.1, by rw [show m.1 = k from by omega]; exact hgetm, ?_, ?_⟩
    · simp [Store.end_session, hget]
    · intro j hj
      exact List.getElem?_set_ne (Ne.symm hj)

/-- Witness for C4: with two running sessions at distinct start times, the
default end targets only the one with the later `start_at`. -/
theorem end_session_default_resolution_witness :
    storeEnded.end_session none none 500 = .error .noRunningSession
    ∧ ∃ i : Nat, storeTwoRunning.sessions[i]? = some sessB
        ∧ storeTwoRunning.end_session none (some "done") 400
            = .ok (⟨storeTwoRunning.sessions.set i
                  { sessB with end_at := some 400, note := some "done" }⟩,
                { sessB with end_at := some 400, note := some "done" })
        ∧ ∀ j : Nat, j ≠ i →
            (storeTwoRunning.sessions.set i
                { sessB with end_at := some 400, note := some "done" })[j]?
              = storeTwoRunning.sessions[j]? :=
  ⟨(end_session_default_resolution storeEnded none 500).1 (by decide),
   (end_session_default_resolution storeTwoRunning (some "done") 400).2 sessB
     (by decide) (by decide) (by decide)⟩

/-- C5: whenever `end_session` succeeds, the returned session has `end_at`
set to the given instant and `note` overwritten with exactly the given
optional value; it is a previously running session of the store with id,
`start_at` and labels unchanged, and the new store replaces only that
position. -/
theorem end_session_success_effect :
    ∀ (st : Store) (idOpt : Option String) (note : Option String) (now : Int)
      (st2 : Store) (s2 : Session),
      st.end_session idOpt note now = .ok (st2, s2) →
      s2.end_at = some now ∧ s2.note = note
      ∧ ∃ (i : Nat) (s : Session), st.sessions[i]? = some s ∧ s.end_at = none
          ∧ s2.id = s.id ∧ s2.start_at = s.start_at ∧ s2.labels = s.labels
          ∧ st2.sessions = st.sessions.set i s2
          ∧ ∀ j : Nat, j ≠ i → st2.sessions[j]? = st.sessions[j]? := by
  intro st idOpt note now st2 s2 h
  cases idOpt with
  | some sid =>
    cases hf : st.get_session_by_id sid with
    | none => simp [Store.end_session, hf] at h
    | some p =>
      obtain ⟨i, s⟩ := p
      cases hE : s.end_at with
      | some e => simp [Store.end_session, hf, hE] at h
      | none =>
        simp only [Store.end_session, hf, hE, Option.isSome_none, Bool.false_eq_true,
          if_false, Except.ok.injEq, Prod.mk.injEq] at h
        obtain ⟨h1, h2⟩ := h
        subst h1
        subst h2
        obtain ⟨k, hk, hget, _⟩ := aux_find_session_some sid st.sessions 0 i s hf
        refine ⟨rfl, rfl, i, s, by rw [show i = k from by omega]; exact hget, hE,
          rfl, rfl, rfl, rfl, fun j hj => List.getElem?_set_ne (Ne.symm hj)⟩
  | none =>
    cases hg : st.get_newest_running_session with
    | none => simp [Store.end_session, hg] at h
    | some p =>
      obtain ⟨i, s⟩ := p
      simp only [Store.end_session, hg, Except.ok.injEq, Prod.mk.injEq] at h
      obtain ⟨h1, h2⟩ := h
      subst h1
      subst h2
      have hmL : (i, s) ∈ running_with_idx st.sessions 0 :=
        (List.perm_insertionSort _ _).mem_iff.mp
          (List.mem_of_getLast?_eq_some hg)
      obtain ⟨k, hk, hget, hn⟩ := aux_running_mem st.sessions 0 i s hmL
      refine ⟨rfl, rfl, i, s, by rw [show i = k from by omega]; exact hget, hn,
        rfl, rfl, rfl, rfl, fun j hj => List.getElem?_set_ne (Ne.symm hj)⟩

/-- Witness for C5: ending the older running fixture session by id sets its
`end_at` and note. -/
theorem end_session_success_effect_witness :
    ({ id := "a1", start_at := 100, end_at := some 300, note := some "did",
        labels := ["work"] } : Session).end_at = some 300 :=
  (end_session_success_effect storeTwoRunning (some "a1") (some "did") 300
    ⟨[{ id := "a1", start_at := 100, end_at := some 300, note := some "did",
        labels := ["work"] }, sessB]⟩
    { id := "a1", start_at := 100, end_at := some 300, note := some "did",
      labels := ["work"] }
    rfl).1

/-- Witness for C3: a second end on the already-ended fixture session is a
Conflict, and an unknown id is not-found. -/
theorem end_session_error_paths_witness :
    storeEnded.end_session (some "zz") none 500 = .error (.notFound "zz")
    ∧ storeEnded.end_session (some "c3") (some "x") 500 = .error (.alreadyEnded "c3") :=
  ⟨(end_session_error_paths storeEnded "zz" none 500).1 (by decide),
   (end_session_error_paths storeEnded "c3" (some "x") 500).2 sessC 80
     (by decide) (by decide) (by decide) (by decide)⟩

theorem aux_lastWs_some :
    ∀ (text : List Char) (mw ws : Nat), lastWsIndex text mw = some ws →
      ws < mw ∧ text[ws]? = some ' ' := by
  intro text
  induction text with
  | nil => intro mw ws h; simp [lastWsIndex] at h
  | cons c rest ih =>
    intro mw ws h
    simp only [lastWsIndex] at h
    by_cases h0 : mw = 0
    · rw [if_pos h0] at h
      simp at h
    · rw [if_neg h0] at h
      cases hr : lastWsIndex rest (mw - 1) with
      | some i =>
        rw [hr] at h
        obtain rfl : i + 1 = ws := Option.some_inj.mp h
        obtain ⟨hlt, hget⟩ := ih (mw - 1) i hr
        exact ⟨by omega, by simpa using hget⟩
      | none =>
        rw [hr] at h
        by_cases hc : c = ' '
        · rw [if_pos hc] at h
          obtain rfl : 0 = ws := Option.some_inj.mp h
          exact ⟨by omega, by simp [hc]⟩
        · rw [if_neg hc] at h
          simp at h

theorem aux_lastWs_none :
    ∀ (text : List Char) (mw : Nat), lastWsIndex text mw = none →
      ∀ j : Nat, j < mw → text[j]? ≠ some ' ' := by
  intro text
  induction text with
  | nil => intro mw _ j _; simp
  | cons c rest ih =>
    intro mw h j hj
    simp only [lastWsIndex] at h
    have h0 : ¬ mw = 0 := by omega
    rw [if_neg h0] at h
    cases hr : lastWsIndex rest (mw - 1) with
    | some i =>
      rw [hr] at h
      simp at h
    | none =>
      rw [hr] at h
      by_cases hc : c = ' '
      · rw [if_pos hc] at h
        simp at h
      · cases j with
        | zero => simpa using hc
        | succ j2 =>
          have := ih (mw - 1) hr j2 (by omega)
          simpa using this

theorem aux_lastWs_maximal :
    ∀ (text : List Char) (mw ws : Nat), lastWsIndex text mw = some ws →
      ∀ j : Nat, j < mw → ws < j → text[j]? ≠ some ' ' := by
  intro text
  induction text with
  | nil => intro mw ws h; simp [lastWsIndex] at h
  | cons c rest ih =>
    intro mw ws h j hj hwj
    simp only [lastWsIndex] at h
    have h0 : ¬ mw = 0 := by omega
    rw [if_neg h0] at h
    cases hr : lastWsIndex rest (mw - 1) with
    | some i =>
      rw [hr] at h
      obtain rfl : i + 1 = ws := Option.some_inj.mp h
      cases j with
      | zero => omega
      | succ j2 =>
        have := ih (mw - 1) i hr j2 (by omega) (by omega)
        simpa using this
    | none =>
      rw [hr] at h
      by_cases hc : c = ' '
      · rw [if_pos hc] at h
        obtain rfl : 0 = ws := Option.some_inj.mp h
        cases j with
        | zero => omega
        | succ j2 =>
          have := aux_lastWs_none rest (mw - 1) hr j2 (by omega)
          simpa using this
      · rw [if_neg hc] at h
        simp at h

theorem aux_lastWs_complete (text : List Char) (mw ws : Nat) (hlt : ws < mw)
    (hget : text[ws]? = some ' ')
    (hmax : ∀ j : Nat, j < mw → ws < j → text[j]? ≠ some ' ') :
    lastWsIndex text mw = some ws := by
  cases hlw : lastWsIndex text mw with
  | none => exact absurd hget (aux_lastWs_none text mw hlw ws hlt)
  | some ws2 =>
    obtain ⟨hlt2, hget2⟩ := aux_lastWs_some text mw ws2 hlw
    have : ws2 = ws := by
      rcases Nat.lt_trichotomy ws ws2 with h | h | h
      · exact absurd hget2 (hmax ws2 hlt2 h)
      · omega
      · exact absurd hget (aux_lastWs_maximal text mw ws2 hlw ws hlt h)
    rw [this]

theorem aux_wrap_lines_le :
    ∀ (fuel : Nat) (text : List Char) (mw : Nat) (parts : List (List Char)),
      wrapFuel fuel text mw = .ok parts → ∀ l ∈ parts, l.length ≤ mw := by
  intro fuel
  induction fuel with
  | zero => intro text mw parts h; simp [wrapFuel] at h
  | succ fuel ih =>
    intro text mw parts h l hl
    rw [wrapFuel] at h
    by_cases h0 : text.length = 0
    · rw [if_pos h0] at h
      obtain rfl : ([] : List (List Char)) = parts := by simpa using h
      simp at hl
    · rw [if_neg h0] at h
      by_cases h1 : text.length ≤ mw
      · rw [if_pos h1] at h
        obtain rfl : [text] = parts := by simpa using h
        rcases List.mem_singleton.mp hl with rfl
        exact h1
      · rw [if_neg h1] at h
        cases hlw : lastWsIndex text mw with
        | some ws =>
          simp only [hlw] at h
          cases hrec : wrapFuel fuel ((text.drop ws).dropWhile (fun c => c.isWhitespace)) mw with
          | ok parts2 =>
            rw [hrec] at h
            obtain rfl : text.take ws :: parts2 = parts := by
              simpa [WrapResult.consLine] using h
            rcases List.mem_cons.mp hl with rfl | hl2
            · obtain ⟨hlt, _⟩ := aux_lastWs_some text mw ws hlw
              have hta : (text.take ws).length ≤ ws := by
                rw [List.length_take]
                omega
              omega
            · exact ih _ mw parts2 hrec l hl2
          | panicked => rw [hrec] at h; simp [WrapResult.consLine] at h
          | outOfFuel => rw [hrec] at h; simp [WrapResult.consLine] at h
        | none =>
          simp only [hlw] at h
          by_cases hmw : mw = 0
          · rw [if_pos hmw] at h
            simp at h
          · rw [if_neg hmw] at h
            cases hrec : wrapFuel fuel (text.drop (mw - 1)) mw with
            | ok parts2 =>
              rw [hrec] at h
              obtain rfl : text.take (mw - 1) :: parts2 = parts := by
                simpa [WrapResult.consLine] using h
              rcases List.mem_cons.mp hl with rfl | hl2
              · have hta : (text.take (mw - 1)).length ≤ mw - 1 := by
                  rw [List.length_take]
                  omega
                omega
              · exact ih _ mw parts2 hrec l hl2
            | panicked => rw [hrec] at h; simp [WrapResult.consLine] at h
            | outOfFuel => rw [hrec] at h; simp [WrapResult.consLine] at h

theorem aux_wrap_total :
    ∀ (fuel : Nat) (text : List Char) (mw : Nat), 2 ≤ mw → text.length < fuel →
      ∃ parts, wrapFuel fuel text mw = .ok parts := by
  intro fuel
  induction fuel with
  | zero => intro text mw _ h; omega
  | succ fuel ih =>
    intro text mw hmw hlen
    by_cases h0 : text.length = 0
    · exact ⟨[], by rw [wrapFuel, if_pos h0]⟩
    · by_cases h1 : text.length ≤ mw
      · exact ⟨[text], by rw [wrapFuel, if_neg h0, if_pos h1]⟩
      · cases hlw : lastWsIndex text mw with
        | some ws =>
          obtain ⟨hlt, hget⟩ := aux_lastWs_some text mw ws hlw
          have hwslen : ws < text.length := by omega
          have hdrop : text.drop ws = ' ' :: text.drop (ws + 1) := by
            rw [List.drop_eq_getElem_cons hwslen]
            have hx := List.getElem?_eq_getElem hwslen
            rw [hx] at hget
            rw [Option.some_inj.mp hget]
          have hrest : ((text.drop ws).dropWhile (fun c => c.isWhitespace)).length
              < text.length := by
            rw [hdrop, List.dropWhile_cons_of_pos (by decide)]
            have hsub := List.Sublist.length_le
              (List.dropWhile_sublist (l := text.drop (ws + 1)) (fun c => c.isWhitespace))
            have hdl : (text.drop (ws + 1)).length = text.length - (ws + 1) :=
              List.length_drop _ _
            omega
          obtain ⟨parts2, hp⟩ :=
            ih ((text.drop ws).dropWhile (fun c => c.isWhitespace)) mw hmw (by omega)
          refine ⟨text.take ws :: parts2, ?_⟩
          rw [wrapFuel, if_neg h0, if_neg h1]
          simp only [hlw]
          rw [hp]
          rfl
        | none =>
          have hrest : (text.drop (mw - 1)).length < text.length := by
            rw [List.length_drop]
            omega
          obtain ⟨parts2, hp⟩ := ih (text.drop (mw - 1)) mw hmw (by omega)
          refine ⟨text.take (mw - 1) :: parts2, ?_⟩
          rw [wrapFuel, if_neg h0, if_neg h1]
          simp only [hlw]
          rw [if_neg (by omega : ¬ mw = 0), hp]
          rfl

theorem aux_wrap_stuck :
    ∀ (fuel : Nat) (text : List Char), ' ' ∉ text → 2 ≤ text.length →
      wrapFuel fuel text 1 = .outOfFuel := by
  intro fuel
  induction fuel with
  | zero => intro text _ _; rfl
  | succ fuel ih =>
    intro text hsp hlen
    rw [wrapFuel, if_neg (by omega), if_neg (by omega)]
    have hlw : lastWsIndex text 1 = none := by
      cases h : lastWsIndex text 1 with
      | none => rfl
      | some ws =>
        obtain ⟨_, hget⟩ := aux_lastWs_some text 1 ws h
        exact absurd (List.getElem?_mem hget) hsp
    simp only [hlw]
    rw [if_neg (by omega : ¬ (1 : Nat) = 0),
      show (1 : Nat) - 1 = 0 from rfl, List.drop_zero, ih text hsp hlen]
    rfl

theorem aux_wrap_panic (fuel : Nat) (text : List Char) (h : text ≠ []) :
    wrapFuel (fuel + 1) text 0 = .panicked := by
  have hlen : 0 < text.length := List.length_pos.mpr h
  rw [wrapFuel, if_neg (by omega), if_neg (by omega)]
  have hlw : lastWsIndex text 0 = none := by
    cases text with
    | nil => simp at h
    | cons c rest => simp [lastWsIndex]
  simp [hlw]

/-- C9: every line the wrapping loop emits has length at most `max_width`
(the hard-split line is even one shorter, so the spec's exception clause is
never needed), and when the text overflows the width and a last whitespace
before the width limit exists, the first emitted line breaks exactly at
that whitespace — never inside a word. -/
theorem built_multilined_note_wrap_spec :
    ∀ (fuel : Nat) (text : List Char) (mw : Nat) (parts : List (List Char)),
      wrapFuel fuel text mw = .ok parts →
      (∀ l ∈ parts, l.length ≤ mw)
      ∧ (∀ ws : Nat, mw < text.length → ws < mw → text[ws]? = some ' ' →
          (∀ j : Nat, j < mw → ws < j → text[j]? ≠ some ' ') →
          parts.head? = some (text.take ws)) := by
  intro fuel text mw parts h
  refine ⟨aux_wrap_lines_le fuel text mw parts h, ?_⟩
  intro ws hlen hws hget hmax
  have hlw : lastWsIndex text mw = some ws := aux_lastWs_complete text mw ws hws hget hmax
  cases fuel with
  | zero => simp [wrapFuel] at h
  | succ fuel =>
    rw [wrapFuel, if_neg (by omega), if_neg (by omega)] at h
    simp only [hlw] at h
    cases hrec : wrapFuel fuel ((text.drop ws).dropWhile (fun c => c.isWhitespace)) mw with
    | ok parts2 =>
      rw [hrec] at h
      obtain rfl : text.take ws :: parts2 = parts := by
        simpa [WrapResult.consLine] using h
      rfl
    | panicked => rw [hrec] at h; simp [WrapResult.consLine] at h
    | outOfFuel => rw [hrec] at h; simp [WrapResult.consLine] at h

/-- Witness for C9 on a concrete wrap: lines fit in the width and the first
break is at the last space before it. -/
theorem built_multilined_note_wrap_spec_witness :
    (∀ l ∈ [['a', 'b'], ['c', 'd', 'e', 'f']], List.length l ≤ 5)
    ∧ ([['a', 'b'], ['c', 'd', 'e', 'f']] : List (List Char)).head?
        = some ("ab cdef".toList.take 2) :=
  ⟨(built_multilined_note_wrap_spec 20 "ab cdef".toList 5 _ (by decide)).1,
   (built_multilined_note_wrap_spec 20 "ab cdef".toList 5 _ (by decide)).2 2
     (by decide) (by decide) (by decide) (by decide)⟩

/-- C10: with `max_width ≥ 2` the loop terminates on every text — fuel one
more than the text length suffices, since the whitespace branch consumes at
least the break-point space and the hard-split branch `max_width - 1 ≥ 1`
characters; the bound is tight — with `max_width = 1` a space-free text of
length at least 2 makes no progress at any fuel, and with `max_width = 0`
any nonempty text reaches the `max_width - 1` underflow panic. -/
theorem built_multilined_note_loop_progress :
    (∀ (text : List Char) (mw : Nat), 2 ≤ mw →
      ∃ parts, wrapFuel (text.length + 1) text mw = .ok parts)
    ∧ (∀ (fuel : Nat) (text : List Char), ' ' ∉ text → 2 ≤ text.length →
        wrapFuel fuel text 1 = .outOfFuel)
    ∧ (∀ (fuel : Nat) (text : List Char), text ≠ [] →
        wrapFuel (fuel + 1) text 0 = .panicked) :=
  ⟨fun text mw hmw => aux_wrap_total (text.length + 1) text mw hmw (by omega),
   fun fuel text => aux_wrap_stuck fuel text,
   fun fuel text h => aux_wrap_panic fuel text h⟩

/-- Witness for C10: a width-2 run completes, a width-1 space-free run
exhausts any fuel, and a width-0 run panics. -/
theorem built_multilined_note_loop_progress_witness :
    (∃ parts, wrapFuel 5 "ab c".toList 2 = .ok parts)
    ∧ wrapFuel 7 "ab".toList 1 = .outOfFuel
    ∧ wrapFuel 1 "a".toList 0 = .panicked :=
  ⟨built_multilined_note_loop_progress.1 "ab c".toList 2 (by omega),
   built_multilined_note_loop_progress.2.1 7 "ab".toList (by decide) (by decide),
   built_multilined_note_loop_progress.2.2 0 "a".toList (by decide)⟩
